import Mathlib

/-!
Verification of the email_deleter program (src/email_deleter.go): a shallow
embedding of its credential caching, sender aggregation and batch deletion
logic, with theorems about the properties its specification states.

Go strings are modelled as lists of characters; the remote mailbox service,
the JSON marshaller and the filesystem are modelled as oracle functions
passed to the embedded code, so each embedded function is a pure function of
the program input plus the responses of its collaborators, exactly mirroring
the control flow of the source.
-/

namespace EmailDeleter

/-- A Go string, modelled as a list of characters. -/
abbrev Str := List Char

/-- Index of the last occurrence of `c` in a string (Go `strings.LastIndex`),
`none` when `c` does not occur. -/
def lastIdx (c : Char) : Str → Option Nat
  | [] => none
  | a :: rest =>
    match lastIdx c rest with
    | some i => some (i + 1)
    | none => if a = c then some 0 else none

/-- Go `extractEmail` (src/email_deleter.go lines 297-306): with
`start := strings.LastIndex(from, "<")` and `end := strings.LastIndex(from, ">")`,
return `from[start+1:end]` when `start >= 0 && end > start`, else the raw value. -/
def extractEmail (v : Str) : Str :=
  match lastIdx '<' v, lastIdx '>' v with
  | some s, some e => if s < e then (v.drop (s + 1)).take (e - (s + 1)) else v
  | _, _ => v

/-- Index of the first occurrence of `c` in a string, `none` when absent. -/
def firstIdx (c : Char) : Str → Option Nat
  | [] => none
  | a :: rest => if a = c then some 0 else (firstIdx c rest).map (· + 1)

/-- Modelled from the spec words, for comparison with `extractEmail`: the
substring between the last '<' and the FIRST '>' after it, or the raw value
when there is no '>' after the last '<' (or no '<' at all). -/
def extractEmailSpecFirstClose (v : Str) : Str :=
  match lastIdx '<' v with
  | none => v
  | some i =>
    match firstIdx '>' (v.drop (i + 1)) with
    | none => v
    | some j => (v.drop (i + 1)).take j

/-- One message header of the Gmail metadata payload: a name and a value. -/
structure Header where
  name : String
  value : Str
  deriving DecidableEq

/-- Go struct `SenderStats` (src/email_deleter.go lines 290-294). -/
structure SenderStats where
  email : Str
  count : Nat
  ids : List String
  deriving DecidableEq

/-- One page of the message-listing response: the listed message IDs and the
continuation token (empty string = no further page). -/
structure Page where
  messages : List String
  nextPageToken : String
  deriving DecidableEq

/-- The first header named "From" in a header list: the header the Go loop
over `message.Payload.Headers` acts on before `break`. -/
def firstFrom : List Header → Option Str
  | [] => none
  | h :: rest => if h.name = "From" then some h.value else firstFrom rest

/-- Insert-or-update on the sender aggregate (lines 258-267): increment the
matching record and append the ID, or append a fresh record with count 1.
The Go map is modelled as an association list in first-seen key order. -/
def updateSender (email : Str) (id : String) : List SenderStats → List SenderStats
  | [] => [⟨email, 1, [id]⟩]
  | r :: rest =>
    if r.email = email then ⟨r.email, r.count + 1, r.ids ++ [id]⟩ :: rest
    else r :: updateSender email id rest

/-- Processing of one listed message ID (lines 246-271): fetch its metadata
(`fetch id = none` models a failed metadata call, skipped with a console
notice), find the first "From" header, and update the aggregate. -/
def processMsg (fetch : String → Option (List Header)) (stats : List SenderStats)
    (id : String) : List SenderStats :=
  match fetch id with
  | none => stats
  | some headers =>
    match firstFrom headers with
    | none => stats
    | some v => updateSender (extractEmail v) id stats

/-- The page loop of `getSenderStats` (lines 232-278): consume listing
responses in order (`Except.error` models a failed listing call), aggregate
each page's messages, and stop after the first page whose continuation token
is empty. Also counts the page requests issued. -/
def harvestLoop (fetch : String → Option (List Header)) :
    List (Except String Page) → List SenderStats → Nat →
    Except String (List SenderStats) × Nat
  | [], stats, n => (Except.ok stats, n)
  | Except.error e :: _, _, n => (Except.error e, n + 1)
  | Except.ok page :: rest, stats, n =>
    let stats2 := page.messages.foldl (processMsg fetch) stats
    if page.nextPageToken = "" then (Except.ok stats2, n + 1)
    else harvestLoop fetch rest stats2 (n + 1)

/-- Go `getSenderStats` (lines 228-287): the whole harvest, started with an
empty aggregate, returning the aggregate (or the listing error) together with
the number of page requests issued. -/
def getSenderStats (pages : List (Except String Page))
    (fetch : String → Option (List Header)) :
    Except String (List SenderStats) × Nat :=
  harvestLoop fetch pages [] 0

/-- The message IDs the page loop processes: all IDs of the pages up to and
including the first page with an empty continuation token. -/
def processedIds : List (Except String Page) → List String
  | [] => []
  | Except.error _ :: _ => []
  | Except.ok page :: rest =>
    if page.nextPageToken = "" then page.messages
    else page.messages ++ processedIds rest

/-- The first listing failure the page loop can reach, if any. -/
def firstFailure : List (Except String Page) → Option String
  | [] => none
  | Except.error e :: _ => some e
  | Except.ok page :: rest =>
    if page.nextPageToken = "" then none else firstFailure rest

/-- Whether a message ID contributes a sender: its metadata fetch succeeds
and the metadata carries a "From" header. -/
def goodMsg (fetch : String → Option (List Header)) (id : String) : Bool :=
  match fetch id with
  | none => false
  | some headers => (firstFrom headers).isSome

/-- Whether a message ID has successfully fetched metadata. -/
def fetchedOk (fetch : String → Option (List Header)) (id : String) : Bool :=
  (fetch id).isSome

/-- Whether a message ID contributes to the record keyed `e`: fetched, has a
"From" header, and its extracted sender identity is `e`. -/
def mapsTo (fetch : String → Option (List Header)) (e : Str) (id : String) : Bool :=
  match fetch id with
  | none => false
  | some headers =>
    match firstFrom headers with
    | none => false
    | some v => decide (extractEmail v = e)

/-- Sum of the counts of all sender records. -/
def sumCounts (stats : List SenderStats) : Nat :=
  (stats.map SenderStats.count).sum

/-- Lookup of the record keyed `e` in the aggregate. -/
def lookupSender (stats : List SenderStats) (e : Str) : Option SenderStats :=
  stats.find? (fun r => decide (r.email = e))

/-- The outcome of a `deleteEmails` run: the `successCount`, the
`deleteErrors` messages, and the number of pacing delays performed. -/
structure DeletionOutcome where
  succeeded : Nat
  failures : List String
  slept : Nat
  deriving DecidableEq

/-- One iteration of the `deleteEmails` loop (lines 314-344): on a failed
trash call, record the failure and continue with the next ID (skipping the
pacing delay); on a returned message, record a failure when the "TRASH"
label is absent or a success when present, then perform the pacing delay. -/
def deleteStep (trash : String → Except String (List String))
    (o : DeletionOutcome) (id : String) : DeletionOutcome :=
  match trash id with
  | Except.error e =>
    ⟨o.succeeded, o.failures ++ ["failed to delete message " ++ id ++ ": " ++ e], o.slept⟩
  | Except.ok labels =>
    if labels.contains "TRASH" then
      ⟨o.succeeded + 1, o.failures, o.slept + 1⟩
    else
      ⟨o.succeeded,
        o.failures ++ ["message " ++ id ++ " was not moved to trash successfully"],
        o.slept + 1⟩

/-- The `deleteEmails` loop over all IDs, from the zero outcome. -/
def runDelete (trash : String → Except String (List String)) (ids : List String) :
    DeletionOutcome :=
  ids.foldl (deleteStep trash) ⟨0, [], 0⟩

/-- Go `deleteEmails` (lines 309-360): the outcome together with the returned
error, present exactly when `deleteErrors` is non-empty. -/
def deleteEmails (trash : String → Except String (List String)) (ids : List String) :
    DeletionOutcome × Option String :=
  let o := runDelete trash ids
  (o, if o.failures.length > 0 then
        some ("some deletions failed: " ++ toString o.failures.length ++ " errors occurred")
      else none)

/-- Whether the trash call for `id` fails at the remote call (the K class). -/
def remoteErr (trash : String → Except String (List String)) (id : String) : Bool :=
  match trash id with
  | Except.error _ => true
  | Except.ok _ => false

/-- Whether the trash call returns but the label set lacks "TRASH" (the J
class). -/
def okNotTrashed (trash : String → Except String (List String)) (id : String) : Bool :=
  match trash id with
  | Except.error _ => false
  | Except.ok labels => !(labels.contains "TRASH")

/-- Whether the trash call returns with the "TRASH" label present. -/
def okTrashed (trash : String → Except String (List String)) (id : String) : Bool :=
  match trash id with
  | Except.error _ => false
  | Except.ok labels => labels.contains "TRASH"

/-- Whether the trash call returns at all (successfully). -/
def remoteOk (trash : String → Except String (List String)) (id : String) : Bool :=
  match trash id with
  | Except.error _ => false
  | Except.ok _ => true

/-- The authenticated transport the token manager hands out, wrapping the
in-memory token. -/
structure Client where
  token : String
  deriving DecidableEq

/-- Go `saveToken` (lines 180-187), with the JSON marshaller and the
filesystem as oracles: on a marshal error return it; otherwise call the
write oracle, discard its result (the Go code ignores the file write's
return value), and report success. The second component is the log output,
which is always empty: `saveToken` logs nothing. -/
def saveToken (tok : String) (marshal : String → Except String String)
    (write : String → Except String Unit) : Except String Unit × List String :=
  match marshal tok with
  | Except.error e => (Except.error e, [])
  | Except.ok data =>
    let _ := write data
    (Except.ok (), [])

/-- Go `getClient` (lines 120-135), with the cached-token read and the web
exchange as oracles: use the cached token when the read succeeds; otherwise
obtain a token from the web, call `saveToken` ignoring its result, and wrap
the in-memory token. The second component is the accumulated log output. -/
def getClient (cached : Except String String) (web : Except String String)
    (marshal : String → Except String String) (write : String → Except String Unit) :
    Except String Client × List String :=
  match cached with
  | Except.ok tok => (Except.ok ⟨tok⟩, [])
  | Except.error _ =>
    match web with
    | Except.error e => (Except.error e, [])
    | Except.ok tok => (Except.ok ⟨tok⟩, (saveToken tok marshal write).2)

/-- The invariant the sender aggregate maintains while the harvest processes
message IDs: record keys are distinct, every record counts exactly its ID
list, every record's ID list is the in-order filter of the processed IDs that
map to its key, and a key with no record has no processed ID mapping to it. -/
def AggInv (fetch : String → Option (List Header)) (processed : List String)
    (stats : List SenderStats) : Prop :=
  (stats.map SenderStats.email).Nodup ∧
  (∀ r ∈ stats, r.count = r.ids.length ∧ r.ids = processed.filter (mapsTo fetch r.email)) ∧
  (∀ e, e ∉ stats.map SenderStats.email → processed.filter (mapsTo fetch e) = [])

/-- A metadata oracle that fails on every message. -/
def fetchNone : String → Option (List Header) := fun _ => none

/-- A metadata oracle that succeeds on every message with an empty header
list (no "From" header). -/
def fetchNoHeaders : String → Option (List Header) := fun _ => some []

/-- A metadata oracle that succeeds on every message with a single "From"
header whose extracted sender identity is `a`. -/
def fetchFromAlice : String → Option (List Header) :=
  fun _ => some [⟨"From", ['a']⟩]

/-- A trash oracle that fails at the remote call on every message. -/
def trashAlwaysErr : String → Except String (List String) :=
  fun _ => Except.error "rate limited"

/-- A marshal oracle that always succeeds. -/
def marshalOk : String → Except String String := fun d => Except.ok d

/-- A write oracle that always fails. -/
def writeAlwaysErr : String → Except String Unit := fun _ => Except.error "disk full"

theorem lastIdx_eq_none (c : Char) : ∀ s : Str, c ∉ s → lastIdx c s = none := by
  intro s hs
  induction s with
  | nil => rfl
  | cons a rest ih =>
    have ha : a ≠ c := fun h => hs (h ▸ List.mem_cons_self a rest)
    have hr : c ∉ rest := fun h => hs (List.mem_cons_of_mem a h)
    simp [lastIdx, ih hr, ha]

theorem lastIdx_append_cons (c : Char) (u v : Str) (hv : c ∉ v) :
    lastIdx c (u ++ c :: v) = some u.length := by
  induction u with
  | nil => simp [lastIdx, lastIdx_eq_none c v hv]
  | cons a u ih => simp [lastIdx, ih]

theorem lastIdx_append_of_not_mem (c : Char) (u t : Str) (ht : c ∉ t) :
    lastIdx c (u ++ t) = lastIdx c u := by
  induction u with
  | nil => simp [lastIdx, lastIdx_eq_none c t ht]
  | cons a u ih =>
    simp only [List.cons_append, lastIdx, List.append_eq, ih]

theorem lastIdx_lt_length (c : Char) : ∀ (s : Str) (i : Nat), lastIdx c s = some i → i < s.length := by
  intro s
  induction s with
  | nil => intro i h; simp [lastIdx] at h
  | cons a rest ih =>
    intro i h
    simp only [lastIdx] at h
    cases hr : lastIdx c rest with
    | some j =>
      rw [hr] at h
      cases h
      exact Nat.succ_lt_succ (ih j hr)
    | none =>
      rw [hr] at h
      by_cases ha : a = c
      · simp [ha] at h
        simp [List.length_cons]
        omega
      · simp [ha] at h

/-- C1 (amended): when some '>' occurs after the last '<' (decomposition
`u ++ '<' :: v ++ '>' :: w` with no later '<' and no later '>'), `extractEmail`
returns the substring `v` between the last '<' and the LAST '>'; when the
value has no '<' at all, or no '>' after the last '<', the raw value is
returned unchanged. -/
theorem extractEmail_characterisation :
    (∀ u v w : Str, '<' ∉ v → '<' ∉ w → '>' ∉ w →
      extractEmail (u ++ '<' :: (v ++ '>' :: w)) = v) ∧
    (∀ s : Str, '<' ∉ s → extractEmail s = s) ∧
    (∀ u v : Str, '<' ∉ v → '>' ∉ v → extractEmail (u ++ '<' :: v) = u ++ '<' :: v) := by
  refine ⟨?_, ?_, ?_⟩
  · intro u v w hv hw hgw
    have hnot : '<' ∉ v ++ '>' :: w := by
      simp only [List.mem_append, List.mem_cons]
      rintro (h | h | h)
      · exact hv h
      · cases h
      · exact hw h
    have h1 : lastIdx '<' (u ++ '<' :: (v ++ '>' :: w)) = some u.length :=
      lastIdx_append_cons '<' u (v ++ '>' :: w) hnot
    have hre : u ++ '<' :: (v ++ '>' :: w) = (u ++ '<' :: v) ++ '>' :: w := by
      simp
    have h2 : lastIdx '>' (u ++ '<' :: (v ++ '>' :: w)) = some ((u ++ '<' :: v).length) := by
      rw [hre]
      exact lastIdx_append_cons '>' (u ++ '<' :: v) w hgw
    have hlen2 : (u ++ '<' :: v).length = u.length + v.length + 1 := by
      simp only [List.length_append, List.length_cons]
      omega
    rw [hlen2] at h2
    have hlt : u.length < u.length + v.length + 1 := by omega
    have hdrop : (u ++ '<' :: (v ++ '>' :: w)).drop (u.length + 1) = v ++ '>' :: w := by
      have : u ++ '<' :: (v ++ '>' :: w) = (u ++ ['<']) ++ (v ++ '>' :: w) := by simp
      rw [this]
      have hlen : (u ++ ['<']).length = u.length + 1 := by simp
      rw [← hlen, List.drop_left]
    have htake : (v ++ '>' :: w).take (u.length + v.length + 1 - (u.length + 1)) = v := by
      have : u.length + v.length + 1 - (u.length + 1) = v.length := by omega
      rw [this, List.take_left]
    simp only [extractEmail, h1, h2, if_pos hlt, hdrop, htake]
  · intro s hs
    cases h2 : lastIdx '>' s <;>
      simp [extractEmail, lastIdx_eq_none '<' s hs, h2]
  · intro u v hv hgv
    have h1 : lastIdx '<' (u ++ '<' :: v) = some u.length :=
      lastIdx_append_cons '<' u v hv
    have hnot : '>' ∉ '<' :: v := by
      simp only [List.mem_cons]
      rintro (h | h)
      · cases h
      · exact hgv h
    have h2 : lastIdx '>' (u ++ '<' :: v) = lastIdx '>' u :=
      lastIdx_append_of_not_mem '>' u ('<' :: v) hnot
    cases h3 : lastIdx '>' u with
    | none => simp [extractEmail, h1, h2, h3]
    | some i =>
      have : i < u.length := lastIdx_lt_length '>' u i h3
      have hnlt : ¬ u.length < i := by omega
      simp [extractEmail, h1, h2, h3, hnlt]

/-- C1 counterexample: on the value `"<a>>"` the last '<' is at index 0 and the
first '>' after it is at index 2, so the claimed rule yields `"a"`, but the
code takes the LAST '>' (index 3) and returns `"a>"`. -/
theorem extractEmail_first_close_cex :
    extractEmail ['<', 'a', '>', '>'] = ['a', '>'] ∧
    extractEmailSpecFirstClose ['<', 'a', '>', '>'] = ['a'] ∧
    extractEmail ['<', 'a', '>', '>'] ≠ extractEmailSpecFirstClose ['<', 'a', '>', '>'] := by
  decide

theorem runDelete_fold (trash : String → Except String (List String)) :
    ∀ (ids : List String) (o : DeletionOutcome),
    (ids.foldl (deleteStep trash) o).succeeded
        = o.succeeded + ids.countP (okTrashed trash) ∧
    (ids.foldl (deleteStep trash) o).failures.length
        = o.failures.length
          + (ids.countP (remoteErr trash) + ids.countP (okNotTrashed trash)) ∧
    (ids.foldl (deleteStep trash) o).slept = o.slept + ids.countP (remoteOk trash) := by
  intro ids
  induction ids with
  | nil => intro o; simp
  | cons id rest ih =>
    intro o
    obtain ⟨ih1, ih2, ih3⟩ := ih (deleteStep trash o id)
    simp only [List.foldl_cons, List.countP_cons]
    refine ⟨?_, ?_, ?_⟩
    · rw [ih1]
      cases htr : trash id with
      | error e =>
        simp [deleteStep, htr, okTrashed]
      | ok labels =>
        by_cases hc : "TRASH" ∈ labels <;>
          simp [deleteStep, htr, okTrashed, hc] <;> omega
    · rw [ih2]
      cases htr : trash id with
      | error e =>
        simp [deleteStep, htr, remoteErr, okNotTrashed]
        omega
      | ok labels =>
        by_cases hc : "TRASH" ∈ labels <;>
          simp [deleteStep, htr, remoteErr, okNotTrashed, hc] <;> omega
    · rw [ih3]
      cases htr : trash id with
      | error e =>
        simp [deleteStep, htr, remoteOk]
      | ok labels =>
        by_cases hc : "TRASH" ∈ labels <;>
          simp [deleteStep, htr, remoteOk, hc] <;> omega

theorem trash_counts_partition (trash : String → Except String (List String)) :
    ∀ ids : List String,
    ids.countP (okTrashed trash)
      + (ids.countP (remoteErr trash) + ids.countP (okNotTrashed trash))
      = ids.length := by
  intro ids
  induction ids with
  | nil => simp
  | cons id rest ih =>
    simp only [List.countP_cons, List.length_cons]
    cases htr : trash id with
    | error e =>
      simp [okTrashed, remoteErr, okNotTrashed, htr]
      omega
    | ok labels =>
      by_cases hc : "TRASH" ∈ labels <;>
        simp [okTrashed, remoteErr, okNotTrashed, htr, hc] <;> omega

/-- C2: for a batch of N message IDs of which K fail at the remote trash call
and J return without the "TRASH" label, `deleteEmails` counts
`succeeded = N - K - J` successes and `K + J` recorded failures, and returns
an error exactly when `K + J > 0`. -/
theorem deleteEmails_accounting (trash : String → Except String (List String))
    (ids : List String) :
    (deleteEmails trash ids).1.succeeded
      = ids.length - (ids.countP (remoteErr trash) + ids.countP (okNotTrashed trash)) ∧
    (deleteEmails trash ids).1.failures.length
      = ids.countP (remoteErr trash) + ids.countP (okNotTrashed trash) ∧
    ((deleteEmails trash ids).2.isSome ↔
      0 < ids.countP (remoteErr trash) + ids.countP (okNotTrashed trash)) := by
  obtain ⟨h1, h2, h3⟩ := runDelete_fold trash ids ⟨0, [], 0⟩
  simp only [Nat.zero_add, List.length_nil] at h1 h2 h3
  have hpart := trash_counts_partition trash ids
  have hout1 : (deleteEmails trash ids).1 = runDelete trash ids := rfl
  refine ⟨?_, ?_, ?_⟩
  · rw [hout1]
    show (List.foldl (deleteStep trash) ⟨0, [], 0⟩ ids).succeeded = _
    omega
  · rw [hout1]
    show (List.foldl (deleteStep trash) ⟨0, [], 0⟩ ids).failures.length = _
    omega
  · have hfail : (runDelete trash ids).failures.length
        = ids.countP (remoteErr trash) + ids.countP (okNotTrashed trash) := by
      show (List.foldl (deleteStep trash) ⟨0, [], 0⟩ ids).failures.length = _
      omega
    show (if (runDelete trash ids).failures.length > 0 then
            some ("some deletions failed: "
              ++ toString (runDelete trash ids).failures.length ++ " errors occurred")
          else none).isSome ↔ _
    rw [hfail]
    by_cases hpos : 0 < ids.countP (remoteErr trash) + ids.countP (okNotTrashed trash)
    · simp [hpos]
    · simp [hpos]

/-- C3 counterexample: for a batch of one ID whose trash call fails at the
remote call, the loop records the failure and continues with the next ID
without reaching the pacing delay, so 0 delays are performed for 1 attempted
ID: the delay is NOT inserted after every attempt. -/
theorem deleteEmails_sleep_skipped_cex :
    (deleteEmails trashAlwaysErr ["m1"]).1.slept = 0 ∧
    (["m1"] : List String).length = 1 ∧
    (deleteEmails trashAlwaysErr ["m1"]).1.slept ≠ (["m1"] : List String).length := by
  refine ⟨rfl, rfl, ?_⟩
  decide

/-- C3 (amended): the fixed 100 ms pacing delay is inserted after every
attempt whose remote trash call returned, whether or not the "TRASH" label
was present; an attempt that fails at the remote call skips the delay and
proceeds directly to the next ID. -/
theorem deleteEmails_sleep_after_remote_ok (trash : String → Except String (List String))
    (ids : List String) :
    (deleteEmails trash ids).1.slept = ids.countP (remoteOk trash) := by
  have h := (runDelete_fold trash ids ⟨0, [], 0⟩).2.2
  simpa using h

/-- C8 (amended): when persisting the newly exchanged token fails, the
failure is silently ignored (`saveToken` discards the write result and
emits no log output) and is not fatal: `getClient` still returns a transport
built from the in-memory token. -/
theorem getClient_persist_failure_nonfatal (ce tok : String)
    (marshal : String → Except String String) (write : String → Except String Unit)
    (hw : ∀ d, ∃ e, write d = Except.error e) :
    (getClient (Except.error ce) (Except.ok tok) marshal write).1 = Except.ok ⟨tok⟩ ∧
    (getClient (Except.error ce) (Except.ok tok) marshal write).2 = [] := by
  cases hm : marshal tok <;> simp [getClient, saveToken, hm]

theorem getClient_persist_failure_nonfatal_witness :
    (getClient (Except.error "no cache") (Except.ok "tok") marshalOk writeAlwaysErr).1
      = Except.ok ⟨"tok"⟩ ∧
    (getClient (Except.error "no cache") (Except.ok "tok") marshalOk writeAlwaysErr).2
      = [] :=
  getClient_persist_failure_nonfatal "no cache" "tok" marshalOk writeAlwaysErr
    (fun _ => ⟨"disk full", rfl⟩)

/-- C8 counterexample: with a cache miss, a successful web exchange, a
successful marshal and a write oracle that always fails, the run emits NO log
output (the write error is discarded by `saveToken`), contradicting the
claim that a persistence failure is logged; the transport is still returned. -/
theorem getClient_persist_failure_not_logged_cex :
    (getClient (Except.error "cache miss") (Except.ok "tok2") marshalOk writeAlwaysErr).2
      = [] ∧
    (getClient (Except.error "cache miss") (Except.ok "tok2") marshalOk writeAlwaysErr).1
      = Except.ok ⟨"tok2"⟩ := by
  exact ⟨rfl, rfl⟩

/-- C9: the harvest is deterministic in its observable inputs: fed the same
page sequence and extensionally equal metadata oracles, `getSenderStats`
returns identical aggregates (same senders, same counts, same ID order) and
the same request count. -/
theorem getSenderStats_deterministic (pages1 pages2 : List (Except String Page))
    (fetch1 fetch2 : String → Option (List Header))
    (hp : pages1 = pages2) (hf : ∀ id, fetch1 id = fetch2 id) :
    getSenderStats pages1 fetch1 = getSenderStats pages2 fetch2 := by
  subst hp
  have hfe : fetch1 = fetch2 := funext hf
  rw [hfe]

theorem getSenderStats_deterministic_witness :
    getSenderStats [Except.ok ⟨["m1"], ""⟩] fetchNone
      = getSenderStats [Except.ok ⟨["m1"], ""⟩] fetchNone :=
  getSenderStats_deterministic [Except.ok ⟨["m1"], ""⟩] [Except.ok ⟨["m1"], ""⟩]
    fetchNone fetchNone rfl (fun _ => rfl)

/-- C6: fed the page sequence `[a, b]`, `[c]`, `[]` where only the final page
carries an empty continuation token, the page loop issues exactly 3 page
requests, terminates, and the aggregate equals the flat aggregation of the
messages a, b, c in order. -/
theorem getSenderStats_three_pages (a b c t1 t2 : String)
    (fetch : String → Option (List Header)) (h1 : t1 ≠ "") (h2 : t2 ≠ "") :
    getSenderStats
        [Except.ok ⟨[a, b], t1⟩, Except.ok ⟨[c], t2⟩, Except.ok ⟨[], ""⟩] fetch
      = (Except.ok ([a, b, c].foldl (processMsg fetch) []), 3) := by
  simp [getSenderStats, harvestLoop, h1, h2]

theorem getSenderStats_three_pages_witness :
    getSenderStats
        [Except.ok ⟨["m1", "m2"], "t1"⟩, Except.ok ⟨["m3"], "t2"⟩, Except.ok ⟨[], ""⟩]
        fetchNone
      = (Except.ok (["m1", "m2", "m3"].foldl (processMsg fetchNone) []), 3) :=
  getSenderStats_three_pages "m1" "m2" "m3" "t1" "t2" fetchNone
    (by decide) (by decide)

theorem harvestLoop_error_iff (fetch : String → Option (List Header)) (e : String) :
    ∀ (pages : List (Except String Page)) (s : List SenderStats) (n : Nat),
    ((harvestLoop fetch pages s n).1 = Except.error e ↔ firstFailure pages = some e) := by
  intro pages
  induction pages with
  | nil => intro s n; simp [harvestLoop, firstFailure]
  | cons resp rest ih =>
    intro s n
    cases resp with
    | error e2 => simp [harvestLoop, firstFailure]
    | ok page =>
      by_cases ht : page.nextPageToken = ""
      · simp [harvestLoop, firstFailure, ht]
      · simp only [harvestLoop, firstFailure, ht, if_neg]
        exact ih _ _

theorem harvestLoop_ok_of_no_failure (fetch : String → Option (List Header)) :
    ∀ (pages : List (Except String Page)) (s : List SenderStats) (n : Nat),
    firstFailure pages = none →
    ∃ stats m, harvestLoop fetch pages s n = (Except.ok stats, m) := by
  intro pages
  induction pages with
  | nil => intro s n _; exact ⟨s, n, rfl⟩
  | cons resp rest ih =>
    intro s n hff
    cases resp with
    | error e2 => simp [firstFailure] at hff
    | ok page =>
      by_cases ht : page.nextPageToken = ""
      · exact ⟨page.messages.foldl (processMsg fetch) s, n + 1, by
          simp [harvestLoop, ht]⟩
      · have hff2 : firstFailure rest = none := by
          simpa [firstFailure, ht] using hff
        obtain ⟨stats, m, hm⟩ :=
          ih (page.messages.foldl (processMsg fetch) s) (n + 1) hff2
        exact ⟨stats, m, by simp [harvestLoop, ht, hm]⟩

/-- C7: the harvest returns an error exactly when the page loop reaches a
failing page-listing call, and on that path no aggregate is returned; because
the right-hand side does not mention the metadata oracle, a failing
per-message metadata fetch (any `fetch` returning `none`) can never cause an
error — the message is skipped and the harvest still returns an aggregate. -/
theorem getSenderStats_error_iff (pages : List (Except String Page))
    (fetch : String → Option (List Header)) :
    (∀ e, (getSenderStats pages fetch).1 = Except.error e ↔ firstFailure pages = some e) ∧
    (firstFailure pages = none →
      ∃ stats, (getSenderStats pages fetch).1 = Except.ok stats) := by
  constructor
  · intro e
    exact harvestLoop_error_iff fetch e pages [] 0
  · intro h
    obtain ⟨stats, m, hm⟩ := harvestLoop_ok_of_no_failure fetch pages [] 0 h
    refine ⟨stats, ?_⟩
    show (harvestLoop fetch pages [] 0).1 = Except.ok stats
    rw [hm]

theorem harvestLoop_ok_stats (fetch : String → Option (List Header)) :
    ∀ (pages : List (Except String Page)) (s : List SenderStats) (n m : Nat)
      (stats : List SenderStats),
    harvestLoop fetch pages s n = (Except.ok stats, m) →
    stats = (processedIds pages).foldl (processMsg fetch) s := by
  intro pages
  induction pages with
  | nil =>
    intro s n m stats h
    simp [harvestLoop] at h
    simp [processedIds, h.1]
  | cons resp rest ih =>
    intro s n m stats h
    cases resp with
    | error e => simp [harvestLoop] at h
    | ok page =>
      by_cases ht : page.nextPageToken = ""
      · simp [harvestLoop, ht] at h
        simp [processedIds, ht, h.1]
      · simp only [harvestLoop, ht, if_neg, ite_false] at h
        have hrec := ih _ _ _ _ h
        simp [processedIds, ht, List.foldl_append, hrec]

theorem sumCounts_updateSender (e : Str) (id : String) :
    ∀ s : List SenderStats, sumCounts (updateSender e id s) = sumCounts s + 1 := by
  intro s
  induction s with
  | nil => simp [updateSender, sumCounts]
  | cons r rest ih =>
    by_cases h : r.email = e
    · simp [updateSender, h, sumCounts, List.sum_cons]
      omega
    · simp only [updateSender, h, ite_false, if_neg]
      simp [sumCounts, List.sum_cons] at ih
      simp [sumCounts, List.sum_cons, ih]
      omega

theorem sumCounts_fold (fetch : String → Option (List Header)) :
    ∀ (ids : List String) (s : List SenderStats),
    sumCounts (ids.foldl (processMsg fetch) s) = sumCounts s + ids.countP (goodMsg fetch) := by
  intro ids
  induction ids with
  | nil => intro s; simp
  | cons id rest ih =>
    intro s
    simp only [List.foldl_cons, List.countP_cons]
    rw [ih]
    cases hf : fetch id with
    | none => simp [processMsg, goodMsg, hf]
    | some headers =>
      cases hff : firstFrom headers with
      | none => simp [processMsg, goodMsg, hf, hff]
      | some v =>
        simp [processMsg, goodMsg, hf, hff, sumCounts_updateSender]
        omega

/-- C4 (amended): for every run of the harvest that returns an aggregate, the
sum of the counts over all sender records equals the number of processed
messages whose metadata fetch succeeded AND whose metadata carries a "From"
header; messages whose metadata fetch failed are excluded from every count
(and so are successfully fetched messages with no "From" header). -/
theorem getSenderStats_count_conservation (pages : List (Except String Page))
    (fetch : String → Option (List Header)) (stats : List SenderStats)
    (h : (getSenderStats pages fetch).1 = Except.ok stats) :
    sumCounts stats = (processedIds pages).countP (goodMsg fetch) := by
  rcases hh : harvestLoop fetch pages [] 0 with ⟨res, m⟩
  have hres : res = Except.ok stats := by
    have : (harvestLoop fetch pages [] 0).1 = Except.ok stats := h
    rw [hh] at this
    exact this
  subst hres
  have hstats := harvestLoop_ok_stats fetch pages [] 0 m stats hh
  rw [hstats, sumCounts_fold]
  simp [sumCounts]

theorem getSenderStats_count_conservation_witness :
    sumCounts [⟨['a'], 1, ["m1"]⟩]
      = (processedIds [Except.ok ⟨["m1"], ""⟩]).countP (goodMsg fetchFromAlice) :=
  getSenderStats_count_conservation [Except.ok ⟨["m1"], ""⟩] fetchFromAlice
    [⟨['a'], 1, ["m1"]⟩] rfl

/-- C4 counterexample: a store with one message whose metadata fetch SUCCEEDS
but whose header list carries no "From" header: the harvest returns an empty
aggregate with total count 0, while the number of successfully
metadata-fetched messages is 1, so the claimed equality fails. -/
theorem getSenderStats_count_cex :
    (getSenderStats [Except.ok ⟨["m1"], ""⟩] fetchNoHeaders).1 = Except.ok [] ∧
    (processedIds [Except.ok ⟨["m1"], ""⟩]).countP (fetchedOk fetchNoHeaders) = 1 ∧
    sumCounts [] = 0 := by
  exact ⟨rfl, rfl, rfl⟩

theorem updateSender_of_not_mem (e : Str) (id : String) :
    ∀ s : List SenderStats, e ∉ s.map SenderStats.email →
    updateSender e id s = s ++ [⟨e, 1, [id]⟩] := by
  intro s
  induction s with
  | nil => intro _; rfl
  | cons r rest ih =>
    intro h
    simp only [List.map_cons, List.mem_cons] at h
    push_neg at h
    obtain ⟨h1, h2⟩ := h
    have hne : ¬ r.email = e := fun hh => h1 hh.symm
    simp [updateSender, hne, ih h2]

theorem updateSender_keys_of_mem (e : Str) (id : String) :
    ∀ s : List SenderStats, e ∈ s.map SenderStats.email →
    (updateSender e id s).map SenderStats.email = s.map SenderStats.email := by
  intro s
  induction s with
  | nil => intro h; simp at h
  | cons r rest ih =>
    intro h
    by_cases hr : r.email = e
    · simp [updateSender, hr]
    · have hrest : e ∈ rest.map SenderStats.email := by
        simp only [List.map_cons, List.mem_cons] at h
        rcases h with h | h
        · exact absurd h.symm hr
        · exact h
      simp [updateSender, hr, ih hrest]

theorem updateSender_mem_cases (e : Str) (id : String) :
    ∀ s : List SenderStats, (s.map SenderStats.email).Nodup →
    ∀ r2 ∈ updateSender e id s,
      (r2 ∈ s ∧ r2.email ≠ e) ∨
      (∃ r, r ∈ s ∧ r.email = e ∧ r2 = ⟨e, r.count + 1, r.ids ++ [id]⟩) ∨
      (e ∉ s.map SenderStats.email ∧ r2 = ⟨e, 1, [id]⟩) := by
  intro s
  induction s with
  | nil =>
    intro _ r2 hr2
    simp [updateSender] at hr2
    right; right
    exact ⟨by simp, hr2⟩
  | cons r rest ih =>
    intro hnd r2 hr2
    simp only [List.map_cons, List.nodup_cons] at hnd
    obtain ⟨hrk, hndrest⟩ := hnd
    by_cases hr : r.email = e
    · simp only [updateSender, hr, ite_true, if_pos] at hr2
      rcases List.mem_cons.mp hr2 with h | h
      · right; left
        exact ⟨r, List.mem_cons_self r rest, hr, by rw [h]⟩
      · left
        refine ⟨List.mem_cons_of_mem r h, ?_⟩
        intro hcontra
        apply hrk
        rw [← hr] at hcontra
        rw [← hcontra]
        exact List.mem_map_of_mem SenderStats.email h
    · simp only [updateSender, hr, ite_false, if_neg] at hr2
      rcases List.mem_cons.mp hr2 with h | h
      · left
        exact ⟨h ▸ List.mem_cons_self r rest, h ▸ hr⟩
      · rcases ih hndrest r2 h with h1 | h2 | h3
        · exact Or.inl ⟨List.mem_cons_of_mem r h1.1, h1.2⟩
        · obtain ⟨r3, hr3, hr3e, hr3eq⟩ := h2
          exact Or.inr (Or.inl ⟨r3, List.mem_cons_of_mem r hr3, hr3e, hr3eq⟩)
        · refine Or.inr (Or.inr ⟨?_, h3.2⟩)
          simp only [List.map_cons, List.mem_cons]
          push_neg
          exact ⟨fun hh => hr hh.symm, h3.1⟩

theorem aggInv_nil (fetch : String → Option (List Header)) : AggInv fetch [] [] := by
  refine ⟨List.nodup_nil, ?_, ?_⟩ <;> simp

theorem aggInv_step (fetch : String → Option (List Header))
    (processed : List String) (stats : List SenderStats) (id : String)
    (h : AggInv fetch processed stats) :
    AggInv fetch (processed ++ [id]) (processMsg fetch stats id) := by
  obtain ⟨hnd, hrec, habs⟩ := h
  cases hf : fetch id with
  | none =>
    have hfilter : ∀ e, (processed ++ [id]).filter (mapsTo fetch e)
        = processed.filter (mapsTo fetch e) := by
      intro e
      rw [List.filter_append]
      simp [mapsTo, hf]
    rw [show processMsg fetch stats id = stats from by simp [processMsg, hf]]
    exact ⟨hnd,
      fun r hr => ⟨(hrec r hr).1, by rw [hfilter]; exact (hrec r hr).2⟩,
      fun e he => by rw [hfilter]; exact habs e he⟩
  | some headers =>
    cases hff : firstFrom headers with
    | none =>
      have hfilter : ∀ e, (processed ++ [id]).filter (mapsTo fetch e)
          = processed.filter (mapsTo fetch e) := by
        intro e
        rw [List.filter_append]
        simp [mapsTo, hf, hff]
      rw [show processMsg fetch stats id = stats from by simp [processMsg, hf, hff]]
      exact ⟨hnd,
        fun r hr => ⟨(hrec r hr).1, by rw [hfilter]; exact (hrec r hr).2⟩,
        fun e he => by rw [hfilter]; exact habs e he⟩
    | some v =>
      have hred : processMsg fetch stats id = updateSender (extractEmail v) id stats := by
        simp [processMsg, hf, hff]
      have hfilter : ∀ e, (processed ++ [id]).filter (mapsTo fetch e)
          = processed.filter (mapsTo fetch e)
            ++ (if extractEmail v = e then [id] else []) := by
        intro e
        rw [List.filter_append]
        congr 1
        by_cases he : extractEmail v = e
        · simp [List.filter, mapsTo, hf, hff, he]
        · simp [List.filter, mapsTo, hf, hff, he]
      rw [hred]
      by_cases hmem : extractEmail v ∈ stats.map SenderStats.email
      · refine ⟨?_, ?_, ?_⟩
        · rw [updateSender_keys_of_mem _ _ _ hmem]
          exact hnd
        · intro r2 hr2
          rcases updateSender_mem_cases (extractEmail v) id stats hnd r2 hr2 with
            ⟨hin, hne⟩ | ⟨r, hrin, hre, heq⟩ | ⟨habs2, _⟩
          · obtain ⟨hc, hi⟩ := hrec r2 hin
            refine ⟨hc, ?_⟩
            rw [hfilter]
            rw [if_neg (fun hh => hne hh.symm)]
            simpa using hi
          · obtain ⟨hc, hi⟩ := hrec r hrin
            subst heq
            refine ⟨by simp [hc], ?_⟩
            show r.ids ++ [id] = _
            rw [hfilter]
            simp only [ite_true, if_pos]
            rw [← hre, ← hi]
          · exact absurd hmem habs2
        · intro e he
          rw [updateSender_keys_of_mem _ _ _ hmem] at he
          have hne : ¬ (extractEmail v = e) := fun hh => he (hh ▸ hmem)
          rw [hfilter, if_neg hne, habs e he]
          rfl
      · rw [updateSender_of_not_mem _ _ _ hmem]
        refine ⟨?_, ?_, ?_⟩
        · simp only [List.map_append, List.map_cons, List.map_nil]
          rw [List.nodup_append]
          refine ⟨hnd, List.nodup_singleton _, ?_⟩
          intro a ha hb
          simp at hb
          rw [hb] at ha
          exact hmem ha
        · intro r2 hr2
          rcases List.mem_append.mp hr2 with hin | hnew
          · have hne : ¬ (extractEmail v = r2.email) :=
              fun hh => hmem (hh ▸ List.mem_map_of_mem SenderStats.email hin)
            obtain ⟨hc, hi⟩ := hrec r2 hin
            refine ⟨hc, ?_⟩
            rw [hfilter, if_neg hne]
            simpa using hi
          · have hr2eq : r2 = ⟨extractEmail v, 1, [id]⟩ := by simpa using hnew
            subst hr2eq
            refine ⟨by simp, ?_⟩
            show [id] = _
            rw [hfilter]
            simp only [ite_true, if_pos]
            rw [habs (extractEmail v) hmem]
            rfl
        · intro e he
          simp only [List.map_append, List.map_cons, List.map_nil,
            List.mem_append, List.mem_cons, List.not_mem_nil] at he
          push_neg at he
          obtain ⟨he1, he2, -⟩ := he
          rw [hfilter, if_neg (fun hh => he2 hh.symm), habs e he1]
          rfl

theorem aggInv_fold (fetch : String → Option (List Header)) :
    ∀ (ids : List String) (processed : List String) (stats : List SenderStats),
    AggInv fetch processed stats →
    AggInv fetch (processed ++ ids) (ids.foldl (processMsg fetch) stats) := by
  intro ids
  induction ids with
  | nil => intro processed stats h; simpa using h
  | cons id rest ih =>
    intro processed stats h
    have h3 := ih (processed ++ [id]) _ (aggInv_step fetch processed stats id h)
    have hl : processed ++ id :: rest = (processed ++ [id]) ++ rest := by simp
    rw [hl, List.foldl_cons]
    exact h3

/-- C5: when the harvested message IDs are pairwise distinct (as IDs of a
message store are), every record of the aggregate built by folding the
per-message step satisfies `count = length ids`, its ID list is exactly the
in-order (first-seen) filter of the processed IDs that map to its sender,
and its IDs are pairwise distinct. Because the statement holds for every ID
list, it holds for every prefix of the harvest, i.e. after every
insert-or-update step. -/
theorem aggregate_record_invariant (fetch : String → Option (List Header))
    (ids : List String) (hnd : ids.Nodup) :
    ∀ r ∈ ids.foldl (processMsg fetch) [],
      r.count = r.ids.length ∧
      r.ids = ids.filter (mapsTo fetch r.email) ∧
      r.ids.Nodup := by
  have h := aggInv_fold fetch ids [] [] (aggInv_nil fetch)
  rw [List.nil_append] at h
  obtain ⟨-, hrec, -⟩ := h
  intro r hr
  obtain ⟨hc, hi⟩ := hrec r hr
  refine ⟨hc, hi, ?_⟩
  rw [hi]
  exact hnd.filter _

theorem aggregate_record_invariant_witness :
    (SenderStats.mk ['a'] 2 ["m1", "m2"]).count
      = (SenderStats.mk ['a'] 2 ["m1", "m2"]).ids.length ∧
    (SenderStats.mk ['a'] 2 ["m1", "m2"]).ids
      = (["m1", "m2"] : List String).filter
          (mapsTo fetchFromAlice (SenderStats.mk ['a'] 2 ["m1", "m2"]).email) ∧
    (SenderStats.mk ['a'] 2 ["m1", "m2"]).ids.Nodup :=
  aggregate_record_invariant fetchFromAlice ["m1", "m2"] (by decide)
    (SenderStats.mk ['a'] 2 ["m1", "m2"]) (by decide)

theorem firstFrom_eq_none_of_no_from :
    ∀ hs : List Header, (∀ h ∈ hs, h.name ≠ "From") → firstFrom hs = none := by
  intro hs
  induction hs with
  | nil => intro _; rfl
  | cons h rest ih =>
    intro hno
    have h1 : h.name ≠ "From" := hno h (List.mem_cons_self h rest)
    have h2 : ∀ h2 ∈ rest, h2.name ≠ "From" :=
      fun h2 hh => hno h2 (List.mem_cons_of_mem h hh)
    simp [firstFrom, h1, ih h2]

theorem firstFrom_append_of_first (h : Header) (post : List Header)
    (hh : h.name = "From") :
    ∀ pre : List Header, (∀ h2 ∈ pre, h2.name ≠ "From") →
    firstFrom (pre ++ h :: post) = some h.value := by
  intro pre
  induction pre with
  | nil => intro _; simp [firstFrom, hh]
  | cons p rest ih =>
    intro hno
    have h1 : p.name ≠ "From" := hno p (List.mem_cons_self p rest)
    have h2 : ∀ h2 ∈ rest, h2.name ≠ "From" :=
      fun h2 hh2 => hno h2 (List.mem_cons_of_mem p hh2)
    simp [firstFrom, h1, ih h2]

theorem lookupSender_updateSender_ne (e0 : Str) (id : String) :
    ∀ (s : List SenderStats) (e : Str), e ≠ e0 →
    lookupSender (updateSender e0 id s) e = lookupSender s e := by
  intro s
  induction s with
  | nil =>
    intro e hne
    have hd : ¬ (e0 = e) := fun hh => hne hh.symm
    simp [updateSender, lookupSender, List.find?, hd]
  | cons r rest ih =>
    intro e hne
    by_cases hr : r.email = e0
    · simp only [updateSender, hr, ite_true, if_pos]
      simp only [lookupSender, List.find?]
      have : ¬ (e0 = e) := fun hh => hne hh.symm
      rw [hr]
      simp [this]
    · simp only [updateSender, hr, ite_false, if_neg]
      simp only [lookupSender, List.find?]
      cases hd : decide (r.email = e) with
      | true => simp [hd]
      | false =>
        simp only [hd]
        exact ih e hne

/-- C10: for a successfully fetched message, the per-message step acts
through the FIRST header named "From" only: with no "From" header the
aggregate is unchanged (the message counts nowhere); with a first "From"
header `h` the step is exactly the insert-or-update at key
`extractEmail h.value`, and every other sender's record is untouched. -/
theorem processMsg_single_record (fetch : String → Option (List Header))
    (stats : List SenderStats) (id : String) :
    (fetch id = none → processMsg fetch stats id = stats) ∧
    (∀ hs, fetch id = some hs → (∀ h ∈ hs, h.name ≠ "From") →
      processMsg fetch stats id = stats) ∧
    (∀ hs pre h post, fetch id = some hs → hs = pre ++ h :: post →
      h.name = "From" → (∀ h2 ∈ pre, h2.name ≠ "From") →
      processMsg fetch stats id = updateSender (extractEmail h.value) id stats ∧
      ∀ e, e ≠ extractEmail h.value →
        lookupSender (processMsg fetch stats id) e = lookupSender stats e) := by
  refine ⟨?_, ?_, ?_⟩
  · intro hf
    simp [processMsg, hf]
  · intro hs hf hno
    simp [processMsg, hf, firstFrom_eq_none_of_no_from hs hno]
  · intro hs pre h post hf hdecomp hname hno
    have hff : firstFrom hs = some h.value := by
      rw [hdecomp]
      exact firstFrom_append_of_first h post hname pre hno
    have hred : processMsg fetch stats id = updateSender (extractEmail h.value) id stats := by
      simp [processMsg, hf, hff]
    refine ⟨hred, ?_⟩
    intro e hne
    rw [hred]
    exact lookupSender_updateSender_ne (extractEmail h.value) id stats e hne
